import Mathlib

/-!
Shallow embedding of the merco market-data / backtesting service.

Monetary values (Rust `BigDecimal`, exact decimal arithmetic) are embedded
as rationals `ℚ`; only `+`, `-`, `*` and comparisons are used by the code,
and `ℚ` models these exactly.  Timestamps (`DateTime<Utc>` at millisecond
resolution) are embedded as `Int` milliseconds, and `Timeframe` durations
as their millisecond value.  `Uuid::new_v4()` (fresh random order ids) is
embedded as a counter `next_order_id` carried in the context: the only
property the code relies on is freshness.  Rust errors (`AppError`) are
embedded as their message strings.
-/

namespace Merco

/-- A stored OHLCV bar (`models/candles.rs::Candle`); the exchange, symbol,
timeframe and volume fields play no role in the verified code paths and are
omitted.  Prices are exact decimals, embedded as `ℚ`. -/
structure Candle where
  timestamp : Int
  open_ : ℚ
  high : ℚ
  low : ℚ
  close : ℚ
  deriving Repr, DecidableEq

/-- Trade kind (`strategy/context.rs::TradeType`). -/
inductive TradeType where
  | marketBuy
  | marketSell
  | limitBuy
  | limitSell
  deriving Repr, DecidableEq

/-- Executed trade (`strategy/context.rs::Trade`). -/
structure Trade where
  timestamp : Int
  trade_type : TradeType
  price : ℚ
  amount : ℚ
  fee : ℚ
  deriving Repr, DecidableEq

/-- Open-order kind (`strategy/context.rs::OrderType`). -/
inductive OrderType where
  | limitBuy
  | limitSell
  deriving Repr, DecidableEq

/-- Open limit order (`strategy/context.rs::Order`).  The `Uuid` id is
embedded as a `Nat`. -/
structure Order where
  id : Nat
  order_type : OrderType
  price : ℚ
  amount : ℚ
  fee : ℚ
  deriving Repr, DecidableEq

/-- Modelled from the spec: the `models` item `TradingFees` is not under
src/ (only `models/candles.rs` is); per spec §3, fees are fractional rates
`{ maker, taker }` applied to quote-notional, exactly as `context.rs`
consumes them. -/
structure TradingFees where
  maker : ℚ
  taker : ℚ
  deriving Repr, DecidableEq

/-- Modelled from the spec: the `models` item `MarketPrecision` is not
under src/; per spec §3 it is the price tick size and amount lot size,
exactly as `context.rs` consumes them. -/
structure MarketPrecision where
  price_precision : ℚ
  amount_precision : ℚ
  deriving Repr, DecidableEq

/-- Modelled from the spec: `utils::round_down_to_precision` is not under
src/.  Spec §3: all submitted prices/amounts are rounded down to a multiple
of the corresponding precision.  `Rat.floor` is used (rather than `⌊·⌋`)
so that the definition evaluates by kernel reduction; the two agree
(`ratFloor_eq`). -/
def round_down_to_precision (x p : ℚ) : ℚ := ((x / p).floor : ℚ) * p

/-- Ceiling of a rational as an integer, written through `Rat.floor` so
that it evaluates by kernel reduction; it agrees with `⌈·⌉`
(`ratCeil_eq`). -/
def ratCeil (q : ℚ) : Int := -(Rat.floor (-q))

/-- Modelled from the spec: `utils::round_up_to_precision` is not under
src/.  Spec §3: fees are rounded up to the price tick. -/
def round_up_to_precision (x p : ℚ) : ℚ := (ratCeil (x / p) : ℚ) * p

/-- The virtual account driven by the backtest engine
(`strategy/context.rs::StrategyContext`).  `next_order_id` embeds the
freshness of `Uuid::new_v4()`. -/
structure StrategyContext where
  candles : List Candle
  balance : ℚ
  position : ℚ
  trades : List Trade
  orders : List Order
  fees : TradingFees
  precision : MarketPrecision
  next_order_id : Nat
  deriving Repr, DecidableEq

/-- `StrategyContext::new`: balance 10000 quote, empty position, no trades
or orders. -/
def StrategyContext.new (fees : TradingFees) (precision : MarketPrecision) :
    StrategyContext :=
  { candles := []
    balance := 10000
    position := 0
    trades := []
    orders := []
    fees := fees
    precision := precision
    next_order_id := 0 }

/-- `StrategyContext::market_buy`: round the amount down to the lot size,
reject non-positive amounts, price the current close rounded down, round
the taker fee up, require `cost + fee ≤ balance`, then debit balance,
credit position and append a `MarketBuy` trade.  Returns the Rust
`AppResult<()>` together with the (possibly unchanged) context. -/
def market_buy (ctx : StrategyContext) (amount0 : ℚ) :
    Except String Unit × StrategyContext :=
  let amount := round_down_to_precision amount0 ctx.precision.amount_precision
  if amount ≤ 0 then
    (.error "Amount must be positive", ctx)
  else
    match ctx.candles.getLast? with
    | none => (.error "No candles available", ctx)
    | some candle =>
      let price := round_down_to_precision candle.close ctx.precision.price_precision
      let cost := price * amount
      let fee := round_up_to_precision (cost * ctx.fees.taker) ctx.precision.price_precision
      let total := cost + fee
      if total > ctx.balance then
        (.error "Insufficient funds", ctx)
      else
        (.ok (),
          { ctx with
            balance := ctx.balance - total
            position := ctx.position + amount
            trades := ctx.trades ++
              [{ timestamp := candle.timestamp, trade_type := .marketBuy,
                 price := price, amount := amount, fee := fee }] })

/-- `StrategyContext::market_sell`: round the amount down, reject
non-positive amounts and amounts above the position, price the current
close rounded down, round the taker fee up, debit position, credit balance
by `proceeds - fee` and append a `MarketSell` trade. -/
def market_sell (ctx : StrategyContext) (amount0 : ℚ) :
    Except String Unit × StrategyContext :=
  let amount := round_down_to_precision amount0 ctx.precision.amount_precision
  if amount ≤ 0 then
    (.error "Amount must be positive", ctx)
  else if amount > ctx.position then
    (.error "Insufficient base asset amount to sell", ctx)
  else
    match ctx.candles.getLast? with
    | none => (.error "No candles available", ctx)
    | some candle =>
      let price := round_down_to_precision candle.close ctx.precision.price_precision
      let proceeds := price * amount
      let fee := round_up_to_precision (proceeds * ctx.fees.taker) ctx.precision.price_precision
      (.ok (),
        { ctx with
          position := ctx.position - amount
          balance := ctx.balance + (proceeds - fee)
          trades := ctx.trades ++
            [{ timestamp := candle.timestamp, trade_type := .marketSell,
               price := price, amount := amount, fee := fee }] })

/-- `StrategyContext::limit_buy`: round price and amount down, reject
non-positive amounts; if the rounded price is at or above the current
close, downgrade to an immediate `market_buy` returning no order id;
otherwise reserve `cost + maker-fee` from balance (failing when
insufficient) and push a fresh open `LimitBuy` order, returning its id. -/
def limit_buy (ctx : StrategyContext) (price0 amount0 : ℚ) :
    Except String (Option Nat) × StrategyContext :=
  let price := round_down_to_precision price0 ctx.precision.price_precision
  let amount := round_down_to_precision amount0 ctx.precision.amount_precision
  if amount ≤ 0 then
    (.error "Amount must be positive", ctx)
  else
    match ctx.candles.getLast? with
    | none => (.error "No candles available", ctx)
    | some candle =>
      if price ≥ candle.close then
        match market_buy ctx amount with
        | (.ok _, ctx2) => (.ok none, ctx2)
        | (.error e, ctx2) => (.error e, ctx2)
      else
        let cost := amount * price
        let fee := round_up_to_precision (cost * ctx.fees.maker) ctx.precision.price_precision
        let total := cost + fee
        if total > ctx.balance then
          (.error "Insufficient funds", ctx)
        else
          (.ok (some ctx.next_order_id),
            { ctx with
              balance := ctx.balance - total
              orders := ctx.orders ++
                [{ id := ctx.next_order_id, order_type := .limitBuy,
                   price := price, amount := amount, fee := fee }]
              next_order_id := ctx.next_order_id + 1 })

/-- `StrategyContext::limit_sell`: round price and amount down, reject
non-positive amounts and amounts above the position; if the rounded price
is at or below the current close, downgrade to an immediate `market_sell`
returning no order id; otherwise reserve `amount` from position and push a
fresh open `LimitSell` order, returning its id. -/
def limit_sell (ctx : StrategyContext) (price0 amount0 : ℚ) :
    Except String (Option Nat) × StrategyContext :=
  let price := round_down_to_precision price0 ctx.precision.price_precision
  let amount := round_down_to_precision amount0 ctx.precision.amount_precision
  if amount ≤ 0 then
    (.error "Amount must be positive", ctx)
  else if amount > ctx.position then
    (.error "Insufficient base asset amount to sell", ctx)
  else
    match ctx.candles.getLast? with
    | none => (.error "No candles available", ctx)
    | some candle =>
      if price ≤ candle.close then
        match market_sell ctx amount with
        | (.ok _, ctx2) => (.ok none, ctx2)
        | (.error e, ctx2) => (.error e, ctx2)
      else
        let proceeds := price * amount
        let fee := round_up_to_precision (proceeds * ctx.fees.maker) ctx.precision.price_precision
        (.ok (some ctx.next_order_id),
          { ctx with
            position := ctx.position - amount
            orders := ctx.orders ++
              [{ id := ctx.next_order_id, order_type := .limitSell,
                 price := price, amount := amount, fee := fee }]
            next_order_id := ctx.next_order_id + 1 })

/-- The `for order in &self.orders` loop of `StrategyContext::before`:
walks the open orders in insertion order, accumulating the mutated
position, balance, appended trades and the ids of executed orders. -/
def beforeLoop (candle : Candle) :
    List Order → ℚ → ℚ → List Trade → List Nat → ℚ × ℚ × List Trade × List Nat
  | [], position, balance, trades, executed => (position, balance, trades, executed)
  | o :: rest, position, balance, trades, executed =>
    match o.order_type with
    | .limitBuy =>
      if o.price ≥ candle.low then
        beforeLoop candle rest (position + o.amount) balance
          (trades ++ [{ timestamp := candle.timestamp, trade_type := .limitBuy,
                        price := o.price, amount := o.amount, fee := o.fee }])
          (executed ++ [o.id])
      else
        beforeLoop candle rest position balance trades executed
    | .limitSell =>
      if o.price ≤ candle.high then
        beforeLoop candle rest position (balance + (o.price * o.amount - o.fee))
          (trades ++ [{ timestamp := candle.timestamp, trade_type := .limitSell,
                        price := o.price, amount := o.amount, fee := o.fee }])
          (executed ++ [o.id])
      else
        beforeLoop candle rest position balance trades executed

/-- `StrategyContext::before` (the per-bar fill phase): against the last
candle of the window, fill every open `LimitBuy` whose price is ≥ the
candle's low and every open `LimitSell` whose price is ≤ the candle's
high, in insertion order, then retain only the orders whose id was not
executed. -/
def before (ctx : StrategyContext) : Except String Unit × StrategyContext :=
  match ctx.candles.getLast? with
  | none => (.error "No candles available", ctx)
  | some candle =>
    let r := beforeLoop candle ctx.orders ctx.position ctx.balance ctx.trades []
    (.ok (),
      { ctx with
        position := r.1
        balance := r.2.1
        trades := r.2.2.1
        orders := ctx.orders.filter (fun o => ¬ r.2.2.2.contains o.id) })

/-- Find-and-remove of the first order with the given id, mirroring
`self.orders.iter().position(..)` followed by `self.orders.remove(pos)`
in `StrategyContext::cancel_order`. -/
def cancelFirst (oid : Nat) : List Order → Option (Order × List Order)
  | [] => none
  | o :: rest =>
    if o.id = oid then some (o, rest)
    else
      match cancelFirst oid rest with
      | none => none
      | some (f, rest2) => some (f, o :: rest2)

/-- `StrategyContext::cancel_order`: if an order with the id exists, refund
its reservation exactly (`LimitBuy`: `price*amount + fee` back to balance;
`LimitSell`: `amount` back to position) and remove it; unknown ids are
silently ignored. -/
def cancel_order (ctx : StrategyContext) (oid : Nat) : StrategyContext :=
  match cancelFirst oid ctx.orders with
  | none => ctx
  | some (o, rest) =>
    match o.order_type with
    | .limitBuy =>
      { ctx with balance := ctx.balance + (o.price * o.amount + o.fee), orders := rest }
    | .limitSell =>
      { ctx with position := ctx.position + o.amount, orders := rest }

/-- `StrategyContext::end` (named `ctxEnd` since `end` is a Lean keyword):
collect the open order ids and cancel each in turn. -/
def ctxEnd (ctx : StrategyContext) : StrategyContext :=
  (ctx.orders.map (fun o => o.id)).foldl cancel_order ctx

/-- Result payload of a backtest (`tasks/backtest.rs::BacktestResult`);
the constant exchange/symbol/timeframe echo fields are omitted. -/
structure BacktestResult where
  candles_processed : Nat
  final_balance : ℚ
  final_position : ℚ
  trades : List Trade
  deriving Repr, DecidableEq

/-- The replay loop of `BacktestTask::execute_backtest`: for each candle,
append it to the window, run the fill phase (`before`), tick the strategy,
run the no-op `after`, and every 100 bars record a progress value
`100*(index+1)/total`.  The strategy plugin's `tick` is embedded as a pure
function on the context (the claims under verification involve only
deterministic, non-failing strategies).  Progress (`f32` in Rust) is
embedded as `ℚ`. -/
def backtestLoop (tick : StrategyContext → StrategyContext) (total : Nat) :
    List Candle → Nat → StrategyContext → List ℚ →
    Except String (StrategyContext × List ℚ)
  | [], _, ctx, evs => .ok (ctx, evs)
  | c :: rest, index, ctx, evs =>
    let ctx1 := { ctx with candles := ctx.candles ++ [c] }
    match before ctx1 with
    | (.error e, _) => .error e
    | (.ok _, ctx2) =>
      let ctx3 := tick ctx2
      let evs2 :=
        if index % 100 = 0 then evs ++ [100 * ((index : ℚ) + 1) / (total : ℚ)]
        else evs
      backtestLoop tick total rest (index + 1) ctx3 evs2

/-- `BacktestTask::execute_backtest`: fail on an empty candle set, build
the initial account, replay every candle through `backtestLoop`, cancel
the remaining open orders (`ctxEnd`), record the final progress 100, and
return the result.  The second component is the sequence of progress
values broadcast during the run. -/
def execute_backtest (tick : StrategyContext → StrategyContext)
    (candles : List Candle) (fees : TradingFees) (precision : MarketPrecision) :
    Except String (BacktestResult × List ℚ) :=
  if candles.length = 0 then
    .error "No candles available for backtest"
  else
    match backtestLoop tick candles.length candles 0
        (StrategyContext.new fees precision) [] with
    | .error e => .error e
    | .ok (ctx, evs) =>
      let ctx2 := ctxEnd ctx
      .ok ({ candles_processed := candles.length
             final_balance := ctx2.balance
             final_position := ctx2.position
             trades := ctx2.trades }, evs ++ [100])

/-- One account-affecting step a backtest run can perform on a
`StrategyContext`: the five operations exposed to strategies, plus the
engine's own steps (appending a bar to the window, the fill phase, and the
end-of-run cancellation). -/
inductive Action where
  | pushCandle (c : Candle)
  | marketBuy (amount : ℚ)
  | marketSell (amount : ℚ)
  | limitBuy (price amount : ℚ)
  | limitSell (price amount : ℚ)
  | cancel (oid : Nat)
  | fillPhase
  | finishRun
  deriving Repr

/-- Apply one `Action` to the context, discarding operation results (the
context an erroring operation returns is the unchanged one). -/
def applyAction (ctx : StrategyContext) : Action → StrategyContext
  | .pushCandle c => { ctx with candles := ctx.candles ++ [c] }
  | .marketBuy a => (market_buy ctx a).2
  | .marketSell a => (market_sell ctx a).2
  | .limitBuy p a => (limit_buy ctx p a).2
  | .limitSell p a => (limit_sell ctx p a).2
  | .cancel oid => cancel_order ctx oid
  | .fillPhase => (before ctx).2
  | .finishRun => ctxEnd ctx

/-- Run a sequence of actions from the initial account
(`StrategyContext::new`: balance 10000, position 0). -/
def runActions (fees : TradingFees) (precision : MarketPrecision)
    (l : List Action) : StrategyContext :=
  l.foldl applyAction (StrategyContext.new fees precision)

/-- Outcome of one terminated fetch run
(`tasks/manager.rs::fetch_candles_data`).  `records` is the value placed
in the task result's `records` field; `count` is the number of candles
inserted by the paging loop; `initialCount` is the size of the initial
batch inserted when the repository was empty; `progress` is the sequence
of values passed to `update_progress` (Rust `f32`, embedded as `ℚ`). -/
structure FetchRun where
  records : Nat
  count : Nat
  initialCount : Nat
  progress : List ℚ
  deriving Repr, DecidableEq

/-- The paging loop of `fetch_candles_data`: request a page at
`next_since`; stop on an empty page; otherwise insert it, advance
`next_since` to the last candle's timestamp plus one bar, add the page
size to `count` and report `progress = 100*count/total`.  The upstream
source is embedded as a function from the `since` timestamp to the page it
returns; `fuel` bounds the number of iterations modelled, with `none`
meaning the loop is still running after `fuel` pages. -/
def fetchLoop (source : Int → List Candle) (tf total : Nat) :
    Nat → Int → Nat → List ℚ → Option (Nat × List ℚ)
  | 0, _, _, _ => none
  | fuel + 1, next_since, count, evs =>
    match (source next_since).getLast? with
    | none => some (count, evs)
    | some latest =>
      let count2 := count + (source next_since).length
      fetchLoop source tf total fuel (latest.timestamp + (tf : Int)) count2
        (evs ++ [100 * (count2 : ℚ) / (total : ℚ)])

/-- Step 1 of `fetch_candles_data`: the starting `next_since`.  With a
stored latest candle it is its timestamp plus one bar; with an empty
repository the source is asked for a page at `since = 0`, which is
inserted, and `next_since` is its last timestamp plus one bar (the page
size is returned alongside); an empty page fails with "No candles data
available". -/
def initialSince (source : Int → List Candle) (latest : Option Int)
    (tf : Nat) (symbol exchange : String) : Except String (Int × Nat) :=
  match latest with
  | some t => .ok (t + (tf : Int), 0)
  | none =>
    match (source 0).getLast? with
    | none => .error ("No candles data available for " ++ symbol ++ " on " ++ exchange)
    | some c => .ok (c.timestamp + (tf : Int), (source 0).length)

/-- `TaskManager::fetch_candles_data`: compute the starting `next_since`
(step 1); map a negative `now - next_since` duration to the "Invalid time
range" error (the Rust `to_u64()` returning `None`); compute
`total = ceil((now - next_since)/tf)` in integer arithmetic; report
progress 0; run the paging loop; and put `total` into the result's
`records` field.  `latest` is the timestamp of the repository's latest
stored candle, if any; `now` is the wall-clock sampled once.  The result
is `none` when the loop has not terminated within `fuel` pages. -/
def fetch_candles_data (source : Int → List Candle) (latest : Option Int)
    (now : Int) (tf : Nat) (symbol exchange : String) (fuel : Nat) :
    Option (Except String FetchRun) :=
  match initialSince source latest tf symbol exchange with
  | .error e => some (.error e)
  | .ok (next_since, initialCount) =>
    if now < next_since then
      some (.error ("Invalid time range for " ++ symbol ++ " on " ++ exchange))
    else
      let time_diff := (now - next_since).toNat
      let total := (time_diff + tf - 1) / tf
      match fetchLoop source tf total fuel next_since 0 [] with
      | none => none
      | some (count, evs) =>
        some (.ok { records := total, count := count,
                    initialCount := initialCount, progress := 0 :: evs })

/-- Task lifecycle status (`tasks/types.rs::TaskStatus`). -/
inductive TaskStatus where
  | pending
  | running
  | completed
  | failed
  deriving Repr, DecidableEq

/-- One mutation of a task performed through the `TaskManager` mutators:
`update_status(Running)`, `update_progress(p)`, `complete_task`,
`fail_task`.  Each mutator emits exactly one event of the corresponding
variant, so this is also the per-task event alphabet after `Create`. -/
inductive TaskMutation where
  | setRunning
  | setProgress (p : ℚ)
  | complete
  | fail
  deriving Repr, DecidableEq

/-- Effect of one mutation on the task's status field: `update_progress`
leaves the status unchanged, the others store the corresponding status. -/
def applyMutation (s : TaskStatus) : TaskMutation → TaskStatus
  | .setRunning => .running
  | .setProgress _ => s
  | .complete => .completed
  | .fail => .failed

/-- Status of a task (created `Pending`) after a sequence of mutations. -/
def statusAfter (l : List TaskMutation) : TaskStatus :=
  l.foldl applyMutation .pending

/-- A status is terminal when it is `Completed` or `Failed`. -/
def TaskStatus.isTerminal : TaskStatus → Bool
  | .completed => true
  | .failed => true
  | _ => false

/-- The sequence of mutations `TaskManager::execute_task` applies to its
task, as a function of the fetch worker's outcome: `update_status(Running)`
first, then one `update_progress` per progress value the worker reports,
then exactly one of `complete_task` / `fail_task`.  These are the only
call sites of the mutators, and a task's single worker performs them in
this order. -/
def executeTaskTrace : Except String FetchRun → List TaskMutation
  | .ok fr => .setRunning :: fr.progress.map .setProgress ++ [.complete]
  | .error _ => [.setRunning, .fail]

/-- The allowed status transitions of spec §4.2: a mutation may keep the
status unchanged, move `Pending` to `Running`, or move `Running` to a
terminal status. -/
def AllowedTransition (s t : TaskStatus) : Prop :=
  t = s ∨ (s = .pending ∧ t = .running) ∨
    (s = .running ∧ (t = .completed ∨ t = .failed))

/-- Invariant: position nonnegative and all open-order amounts nonnegative. -/
def PosInv (ctx : StrategyContext) : Prop :=
  0 ≤ ctx.position ∧ ∀ o ∈ ctx.orders, 0 ≤ o.amount

/-- A bar whose four prices all equal `c` (used by concrete runs). -/
def flatCandle (ts : Int) (c : ℚ) : Candle :=
  { timestamp := ts, open_ := c, high := c, low := c, close := c }

/-- Fees with taker rate 0.1 percent (used by concrete runs). -/
def drainFees : TradingFees := { maker := 0, taker := 1/1000 }

/-- Price tick 1, lot size 0.1 (used by concrete runs). -/
def drainPrecision : MarketPrecision := { price_precision := 1, amount_precision := 1/10 }

/-- A run that drains the balance with two buys and then sells a small
amount whose rounded-up fee exceeds its proceeds. -/
def drainActions : List Action :=
  [.pushCandle (flatCandle 0 99000), .marketBuy (1/10),
   .pushCandle (flatCandle 1 890), .marketBuy (1/10),
   .pushCandle (flatCandle 2 1), .marketSell (1/10)]

/-- Orders carry ids older than the context's next fresh id; holds for
every context reachable from `StrategyContext.new` and is what
`Uuid::new_v4()` freshness provides. -/
def IdsFresh (ctx : StrategyContext) : Prop :=
  ∀ o ∈ ctx.orders, o.id ≠ ctx.next_order_id

/-- Scenario S6 bar: trades between 90 and 110, closing at 100. -/
def s6Candle (ts : Int) : Candle :=
  { timestamp := ts, open_ := 100, high := 110, low := 90, close := 100 }

/-- Scenario S6 candle set: three bars all trading above 80. -/
def s6Candles : List Candle := [s6Candle 0, s6Candle 1, s6Candle 2]

/-- Scenario S6 strategy: place `limit_buy(50, 1)` on the first bar and do
nothing afterwards. -/
def s6Tick (ctx : StrategyContext) : StrategyContext :=
  if ctx.candles.length = 1 then (limit_buy ctx 50 1).2 else ctx

/-- Scenario S6 fees: maker and taker both 0.1 percent. -/
def s6Fees : TradingFees := { maker := 1/1000, taker := 1/1000 }

/-- Scenario S6 precision: tick and lot size 0.01. -/
def s6Precision : MarketPrecision :=
  { price_precision := 1/100, amount_precision := 1/100 }

/-- A fresh account (zero fees, unit precision) holding one bar at close
100, used to witness the reservation law at a concrete input. -/
def c6WCtx : StrategyContext :=
  { StrategyContext.new { maker := 0, taker := 0 }
      { price_precision := 1, amount_precision := 1 } with
    candles := [flatCandle 0 100] }

/-- The account `c6WCtx` after `limit_buy 50 1`: 50 reserved, one open
order. -/
def c6WCtx2 : StrategyContext :=
  { c6WCtx with
    balance := 9950
    orders := [{ id := 0, order_type := .limitBuy, price := 50, amount := 1, fee := 0 }]
    next_order_id := 1 }

/-- An account holding one bar closing at 100.5, with price tick 1: the
rounded-down limit price can fall below the close even when the requested
price is above it. -/
def c7Ctx : StrategyContext :=
  { StrategyContext.new { maker := 0, taker := 0 }
      { price_precision := 1, amount_precision := 1 } with
    candles := [flatCandle 0 (201/2)] }
/-- An account holding one bar closing at 100 (a multiple of the tick). -/
def c7WCtx : StrategyContext :=
  { StrategyContext.new { maker := 0, taker := 0 }
      { price_precision := 1, amount_precision := 1 } with
    candles := [flatCandle 0 100] }
/-- The per-bar fill condition of spec section 4.4: a `LimitBuy` fills
when its price is at or above the bar's low, a `LimitSell` when its price
is at or below the bar's high. -/
def fills (c : Candle) (o : Order) : Bool :=
  match o.order_type with
  | .limitBuy => decide (o.price ≥ c.low)
  | .limitSell => decide (o.price ≤ c.high)
/-- The trade appended when an order fills on bar `c`: the order's price,
amount and fee at the bar's timestamp. -/
def fillTrade (c : Candle) (o : Order) : Trade :=
  { timestamp := c.timestamp
    trade_type := match o.order_type with
      | .limitBuy => .limitBuy
      | .limitSell => .limitSell
    price := o.price
    amount := o.amount
    fee := o.fee }
/-- Position gained from one order during the fill phase: its amount if it
is a `LimitBuy` that fills, otherwise zero. -/
def buyContribution (c : Candle) (o : Order) : ℚ :=
  match o.order_type with
  | .limitBuy => if o.price ≥ c.low then o.amount else 0
  | .limitSell => 0
/-- Balance gained from one order during the fill phase:
`price*amount - fee` if it is a `LimitSell` that fills, otherwise zero. -/
def sellContribution (c : Candle) (o : Order) : ℚ :=
  match o.order_type with
  | .limitBuy => 0
  | .limitSell => if o.price ≤ c.high then o.price * o.amount - o.fee else 0
/-- A bar trading between 90 and 110 (used to witness the fill phase). -/
def c8Candle : Candle :=
  { timestamp := 5, open_ := 100, high := 110, low := 90, close := 100 }
/-- An account with three open orders: a crossing `LimitBuy` at 95, a
crossing `LimitSell` at 105, and a non-crossing `LimitBuy` at 50. -/
def c8WCtx : StrategyContext :=
  { StrategyContext.new { maker := 0, taker := 0 }
      { price_precision := 1, amount_precision := 1 } with
    candles := [c8Candle]
    orders :=
      [{ id := 0, order_type := .limitBuy, price := 95, amount := 1, fee := 2 },
       { id := 1, order_type := .limitSell, price := 105, amount := 2, fee := 3 },
       { id := 2, order_type := .limitBuy, price := 50, amount := 1, fee := 1 }]
    next_order_id := 3 }
/-- A source with no candles at any `since`. -/
def srcEmpty : Int → List Candle := fun _ => []
/-- A source that serves one page of two one-minute bars at
`since = 60000` and nothing elsewhere. -/
def srcTwoPages : Int → List Candle := fun since =>
  if since = 60000 then [flatCandle 60000 1, flatCandle 120000 1] else []
/-- A source that always returns the same single bar at timestamp 0: its
pages never advance `next_since` beyond 60000. -/
def srcConst : Int → List Candle := fun _ => [flatCandle 0 1]
/-! Helper lemmas. -/

/-- `Rat.floor` agrees with the Mathlib floor. -/
theorem ratFloor_eq (q : ℚ) : q.floor = ⌊q⌋ := by
  rw [Rat.floor_def' q, Rat.floor_def]

/-- `ratCeil` agrees with the Mathlib ceiling. -/
theorem ratCeil_eq (q : ℚ) : ratCeil q = ⌈q⌉ := by
  rw [ratCeil, ratFloor_eq, Int.floor_neg, neg_neg]

/-- Rounding down is idempotent. -/
theorem round_down_idem (x p : ℚ) :
    round_down_to_precision (round_down_to_precision x p) p =
      round_down_to_precision x p := by
  unfold round_down_to_precision
  rcases eq_or_ne p 0 with hp | hp
  · simp [hp]
  · rw [ratFloor_eq, ratFloor_eq, mul_div_assoc, div_self hp, mul_one, Int.floor_intCast]

/-- A positive amount strictly below the lot size rounds down to zero. -/
theorem round_down_small (a p : ℚ) (h0 : 0 < a) (hp : a < p) :
    round_down_to_precision a p = 0 := by
  unfold round_down_to_precision
  rw [ratFloor_eq]
  have hppos : 0 < p := h0.trans hp
  have h1 : ⌊a / p⌋ = 0 := by
    rw [Int.floor_eq_zero_iff]
    constructor
    · positivity
    · rw [div_lt_one hppos]; exact hp
  rw [h1]; simp

/-- A `market_buy` that returns an error leaves the context unchanged. -/
theorem market_buy_error_eq (ctx ctx2 : StrategyContext) (a : ℚ) (e : String)
    (h : market_buy ctx a = (.error e, ctx2)) : ctx2 = ctx := by
  unfold market_buy at h
  dsimp only at h
  split at h
  · injection h with h1 h2; exact h2.symm
  · split at h
    · injection h with h1 h2; exact h2.symm
    · split at h
      · injection h with h1 h2; exact h2.symm
      · injection h with h1 h2; exact Except.noConfusion h1

/-- A `market_sell` that returns an error leaves the context unchanged. -/
theorem market_sell_error_eq (ctx ctx2 : StrategyContext) (a : ℚ) (e : String)
    (h : market_sell ctx a = (.error e, ctx2)) : ctx2 = ctx := by
  unfold market_sell at h
  dsimp only at h
  split at h
  · injection h with h1 h2; exact h2.symm
  · split at h
    · injection h with h1 h2; exact h2.symm
    · split at h
      · injection h with h1 h2; exact h2.symm
      · injection h with h1 h2; exact Except.noConfusion h1

/-- A `limit_buy` that returns an error leaves the context unchanged. -/
theorem limit_buy_error_eq (ctx ctx2 : StrategyContext) (p a : ℚ) (e : String)
    (h : limit_buy ctx p a = (.error e, ctx2)) : ctx2 = ctx := by
  unfold limit_buy at h
  dsimp only at h
  split at h
  · injection h with h1 h2; exact h2.symm
  · split at h
    · injection h with h1 h2; exact h2.symm
    · split at h
      · split at h
        · injection h with h1 h2; exact Except.noConfusion h1
        · rename_i e2 c2 heq
          injection h with h1 h2
          exact h2.symm.trans (market_buy_error_eq ctx c2 _ _ heq)
      · split at h
        · injection h with h1 h2; exact h2.symm
        · injection h with h1 h2; exact Except.noConfusion h1

/-- A `limit_sell` that returns an error leaves the context unchanged. -/
theorem limit_sell_error_eq (ctx ctx2 : StrategyContext) (p a : ℚ) (e : String)
    (h : limit_sell ctx p a = (.error e, ctx2)) : ctx2 = ctx := by
  unfold limit_sell at h
  dsimp only at h
  split at h
  · injection h with h1 h2; exact h2.symm
  · split at h
    · injection h with h1 h2; exact h2.symm
    · split at h
      · injection h with h1 h2; exact h2.symm
      · split at h
        · split at h
          · injection h with h1 h2; exact Except.noConfusion h1
          · rename_i e2 c2 heq
            injection h with h1 h2
            exact h2.symm.trans (market_sell_error_eq ctx c2 _ _ heq)
        · injection h with h1 h2; exact Except.noConfusion h1

theorem posInv_market_buy (ctx : StrategyContext) (a : ℚ) (h : PosInv ctx) :
    PosInv (market_buy ctx a).2 := by
  unfold market_buy
  dsimp only
  split
  · exact h
  · split
    · exact h
    · split
      · exact h
      · have hpos : 0 < round_down_to_precision a ctx.precision.amount_precision :=
          not_le.mp (by assumption)
        exact ⟨add_nonneg h.1 hpos.le, h.2⟩

theorem posInv_market_sell (ctx : StrategyContext) (a : ℚ) (h : PosInv ctx) :
    PosInv (market_sell ctx a).2 := by
  unfold market_sell
  dsimp only
  split
  · exact h
  · split
    · exact h
    · split
      · exact h
      · have hle : round_down_to_precision a ctx.precision.amount_precision ≤ ctx.position :=
          not_lt.mp (by assumption)
        exact ⟨sub_nonneg.mpr hle, h.2⟩

theorem posInv_limit_buy (ctx : StrategyContext) (p a : ℚ) (h : PosInv ctx) :
    PosInv (limit_buy ctx p a).2 := by
  unfold limit_buy
  dsimp only
  split
  · exact h
  · split
    · exact h
    · split
      · generalize hmb : market_buy ctx (round_down_to_precision a ctx.precision.amount_precision) = res
        have hres := posInv_market_buy ctx (round_down_to_precision a ctx.precision.amount_precision) h
        rw [hmb] at hres
        rcases res with ⟨r | e, c2⟩
        · exact hres
        · exact hres
      · split
        · exact h
        · have hpos : 0 < round_down_to_precision a ctx.precision.amount_precision :=
            not_le.mp (by assumption)
          refine ⟨h.1, ?_⟩
          intro o ho
          rcases List.mem_append.mp ho with h1 | h1
          · exact h.2 o h1
          · rcases List.mem_singleton.mp h1 with rfl
            exact hpos.le

theorem posInv_limit_sell (ctx : StrategyContext) (p a : ℚ) (h : PosInv ctx) :
    PosInv (limit_sell ctx p a).2 := by
  unfold limit_sell
  dsimp only
  split
  · exact h
  · split
    · exact h
    · split
      · exact h
      · split
        · generalize hms : market_sell ctx (round_down_to_precision a ctx.precision.amount_precision) = res
          have hres := posInv_market_sell ctx (round_down_to_precision a ctx.precision.amount_precision) h
          rw [hms] at hres
          rcases res with ⟨r | e, c2⟩
          · exact hres
          · exact hres
        · have hpos : 0 < round_down_to_precision a ctx.precision.amount_precision :=
            not_le.mp (by assumption)
          have hle : round_down_to_precision a ctx.precision.amount_precision ≤ ctx.position :=
            not_lt.mp (by assumption)
          refine ⟨sub_nonneg.mpr hle, ?_⟩
          intro o ho
          rcases List.mem_append.mp ho with h1 | h1
          · exact h.2 o h1
          · rcases List.mem_singleton.mp h1 with rfl
            exact hpos.le


theorem cancelFirst_mem (oid : Nat) :
    ∀ (l : List Order) (o : Order) (rest : List Order),
      cancelFirst oid l = some (o, rest) → o ∈ l ∧ ∀ x ∈ rest, x ∈ l := by
  intro l
  induction l with
  | nil => intro o rest h; simp [cancelFirst] at h
  | cons hd tl ih =>
    intro o rest h
    unfold cancelFirst at h
    split at h
    · injection h with h1
      injection h1 with h2 h3
      subst h2; subst h3
      exact ⟨List.mem_cons_self _ _, fun x hx => List.mem_cons_of_mem _ hx⟩
    · split at h
      · exact absurd h (by simp)
      · rename_i f rest2 heq
        injection h with h1
        injection h1 with h2 h3
        subst h2; subst h3
        obtain ⟨hf, hsub⟩ := ih f rest2 heq
        refine ⟨List.mem_cons_of_mem _ hf, ?_⟩
        intro x hx
        rcases List.mem_cons.mp hx with rfl | hx2
        · exact List.mem_cons_self _ _
        · exact List.mem_cons_of_mem _ (hsub x hx2)

theorem posInv_cancel_order (ctx : StrategyContext) (oid : Nat) (h : PosInv ctx) :
    PosInv (cancel_order ctx oid) := by
  unfold cancel_order
  split
  · exact h
  · rename_i o rest heq
    obtain ⟨ho, hsub⟩ := cancelFirst_mem oid ctx.orders o rest heq
    split
    · exact ⟨h.1, fun x hx => h.2 x (hsub x hx)⟩
    · exact ⟨add_nonneg h.1 (h.2 o ho), fun x hx => h.2 x (hsub x hx)⟩

theorem beforeLoop_position_le (c : Candle) :
    ∀ (l : List Order) (pos bal : ℚ) (tr : List Trade) (ex : List Nat),
      (∀ o ∈ l, 0 ≤ o.amount) →
      pos ≤ (beforeLoop c l pos bal tr ex).1 := by
  intro l
  induction l with
  | nil => intro pos bal tr ex _; exact le_refl _
  | cons hd tl ih =>
    intro pos bal tr ex hamt
    unfold beforeLoop
    split
    · split
      · refine le_trans ?_ (ih _ _ _ _ (fun o ho => hamt o (List.mem_cons_of_mem _ ho)))
        have := hamt hd (List.mem_cons_self _ _)
        linarith
      · exact ih _ _ _ _ (fun o ho => hamt o (List.mem_cons_of_mem _ ho))
    · split
      · exact ih _ _ _ _ (fun o ho => hamt o (List.mem_cons_of_mem _ ho))
      · exact ih _ _ _ _ (fun o ho => hamt o (List.mem_cons_of_mem _ ho))

theorem posInv_before (ctx : StrategyContext) (h : PosInv ctx) :
    PosInv (before ctx).2 := by
  unfold before
  split
  · exact h
  · refine ⟨le_trans h.1 (beforeLoop_position_le _ _ _ _ _ _ h.2), ?_⟩
    intro o ho
    exact h.2 o (List.mem_of_mem_filter ho)

theorem posInv_foldl_cancel (ids : List Nat) :
    ∀ ctx : StrategyContext, PosInv ctx → PosInv (ids.foldl cancel_order ctx) := by
  induction ids with
  | nil => intro ctx h; exact h
  | cons hd tl ih => intro ctx h; exact ih _ (posInv_cancel_order ctx hd h)

theorem posInv_ctxEnd (ctx : StrategyContext) (h : PosInv ctx) :
    PosInv (ctxEnd ctx) :=
  posInv_foldl_cancel _ ctx h

theorem posInv_applyAction (ctx : StrategyContext) (act : Action) (h : PosInv ctx) :
    PosInv (applyAction ctx act) := by
  cases act with
  | pushCandle c => exact h
  | marketBuy a => exact posInv_market_buy ctx a h
  | marketSell a => exact posInv_market_sell ctx a h
  | limitBuy p a => exact posInv_limit_buy ctx p a h
  | limitSell p a => exact posInv_limit_sell ctx p a h
  | cancel oid => exact posInv_cancel_order ctx oid h
  | fillPhase => exact posInv_before ctx h
  | finishRun => exact posInv_ctxEnd ctx h

theorem posInv_foldl (l : List Action) :
    ∀ ctx : StrategyContext, PosInv ctx → PosInv (l.foldl applyAction ctx) := by
  induction l with
  | nil => intro ctx h; exact h
  | cons hd tl ih => intro ctx h; exact ih _ (posInv_applyAction ctx hd h)

/-- C5 (amended): after every sequence of account operations and fills
starting from the initial account, `position ≥ 0` holds.  The balance half
of the claim is refuted by the counterexample: a sell whose rounded-up fee
exceeds its proceeds can push the balance below zero. -/
theorem runActions_position_nonneg (fees : TradingFees) (precision : MarketPrecision)
    (l : List Action) : 0 ≤ (runActions fees precision l).position := by
  refine (posInv_foldl l _ ?_).1
  exact ⟨le_refl 0, by intro o ho; simp [StrategyContext.new] at ho⟩

/-- C5 counterexample: from the initial account (balance 10000), two
market buys that leave balance exactly 0 followed by a market sell of 0.1
at close 1 (proceeds 0.1, fee rounded up to 1) leave the balance at -0.9,
refuting `balance >= 0` after every operation. -/
theorem c5_counterexample :
    (runActions drainFees drainPrecision drainActions).balance = -(9/10) ∧
    (runActions drainFees drainPrecision drainActions).balance < 0 := by
  constructor
  · with_unfolding_all rfl
  · with_unfolding_all decide

/-- C10: every account operation that returns an error leaves the account
entirely unchanged, and any positive requested amount strictly smaller
than `amount_precision` (which rounds down to zero) is rejected with
"Amount must be positive" by all four operations. -/
theorem c10_error_atomicity (ctx : StrategyContext) :
    (∀ a e ctx2, market_buy ctx a = (.error e, ctx2) → ctx2 = ctx) ∧
    (∀ a e ctx2, market_sell ctx a = (.error e, ctx2) → ctx2 = ctx) ∧
    (∀ p a e ctx2, limit_buy ctx p a = (.error e, ctx2) → ctx2 = ctx) ∧
    (∀ p a e ctx2, limit_sell ctx p a = (.error e, ctx2) → ctx2 = ctx) ∧
    (∀ a, 0 < a → a < ctx.precision.amount_precision →
      market_buy ctx a = (.error "Amount must be positive", ctx) ∧
      market_sell ctx a = (.error "Amount must be positive", ctx) ∧
      ∀ p, limit_buy ctx p a = (.error "Amount must be positive", ctx) ∧
           limit_sell ctx p a = (.error "Amount must be positive", ctx)) := by
  refine ⟨fun a e ctx2 h => market_buy_error_eq ctx ctx2 a e h,
          fun a e ctx2 h => market_sell_error_eq ctx ctx2 a e h,
          fun p a e ctx2 h => limit_buy_error_eq ctx ctx2 p a e h,
          fun p a e ctx2 h => limit_sell_error_eq ctx ctx2 p a e h,
          ?_⟩
  intro a h0 hlt
  have hz : round_down_to_precision a ctx.precision.amount_precision = 0 :=
    round_down_small a _ h0 hlt
  refine ⟨?_, ?_, fun p => ⟨?_, ?_⟩⟩
  · unfold market_buy; dsimp only; rw [hz]; simp
  · unfold market_sell; dsimp only; rw [hz]; simp
  · unfold limit_buy; dsimp only; rw [hz]; simp
  · unfold limit_sell; dsimp only; rw [hz]; simp

/-- C10 witness: at a concrete fresh account with lot size 1, requesting
amount 1/2 fails with "Amount must be positive" and leaves the account
unchanged. -/
theorem c10_witness :
    market_buy (StrategyContext.new { maker := 0, taker := 0 }
        { price_precision := 1, amount_precision := 1 }) (1/2) =
      (.error "Amount must be positive",
        StrategyContext.new { maker := 0, taker := 0 }
          { price_precision := 1, amount_precision := 1 }) := by
  have h := (c10_error_atomicity (StrategyContext.new { maker := 0, taker := 0 }
      { price_precision := 1, amount_precision := 1 })).2.2.2.2 (1/2)
      (by with_unfolding_all decide) (by with_unfolding_all decide)
  exact h.1

/-- The first order with a given id in `l ++ [o0]`, when no order of `l`
carries that id, is `o0`, and removing it restores `l`. -/
theorem cancelFirst_append (oid : Nat) (o0 : Order) (ho : o0.id = oid) :
    ∀ l : List Order, (∀ o ∈ l, o.id ≠ oid) →
      cancelFirst oid (l ++ [o0]) = some (o0, l) := by
  intro l
  induction l with
  | nil => intro _; simp [cancelFirst, ho]
  | cons hd tl ih =>
    intro hns
    have hhd : ¬ hd.id = oid := hns hd (List.mem_cons_self _ _)
    rw [List.cons_append]
    unfold cancelFirst
    rw [if_neg hhd, ih (fun o ho2 => hns o (List.mem_cons_of_mem _ ho2))]

/-- Placing a `LimitBuy` (non-downgraded) and then cancelling it restores
the whole context except for the consumed fresh order id. -/
theorem limit_buy_cancel (ctx : StrategyContext) (p a : ℚ) (oid : Nat)
    (ctx' : StrategyContext) (hfresh : IdsFresh ctx)
    (h : limit_buy ctx p a = (.ok (some oid), ctx')) :
    cancel_order ctx' oid = { ctx with next_order_id := ctx.next_order_id + 1 } := by
  unfold limit_buy at h
  dsimp only at h
  split at h
  · exact absurd (congrArg Prod.fst h) (by simp)
  · split at h
    · exact absurd (congrArg Prod.fst h) (by simp)
    · split at h
      · split at h
        · exact absurd (congrArg Prod.fst h) (by simp)
        · exact absurd (congrArg Prod.fst h) (by simp)
      · split at h
        · exact absurd (congrArg Prod.fst h) (by simp)
        · injection h with h1 h2
          injection h1 with h1
          injection h1 with h1
          subst h1
          subst h2
          unfold cancel_order
          dsimp only
          rw [cancelFirst_append ctx.next_order_id _ rfl ctx.orders hfresh]
          dsimp only
          simp only [StrategyContext.mk.injEq, and_true, true_and]
          ring

/-- Placing a `LimitSell` (non-downgraded) and then cancelling it restores
the whole context except for the consumed fresh order id. -/
theorem limit_sell_cancel (ctx : StrategyContext) (p a : ℚ) (oid : Nat)
    (ctx' : StrategyContext) (hfresh : IdsFresh ctx)
    (h : limit_sell ctx p a = (.ok (some oid), ctx')) :
    cancel_order ctx' oid = { ctx with next_order_id := ctx.next_order_id + 1 } := by
  unfold limit_sell at h
  dsimp only at h
  split at h
  · exact absurd (congrArg Prod.fst h) (by simp)
  · split at h
    · exact absurd (congrArg Prod.fst h) (by simp)
    · split at h
      · exact absurd (congrArg Prod.fst h) (by simp)
      · split at h
        · split at h
          · exact absurd (congrArg Prod.fst h) (by simp)
          · exact absurd (congrArg Prod.fst h) (by simp)
        · injection h with h1 h2
          injection h1 with h1
          injection h1 with h1
          subst h1
          subst h2
          unfold cancel_order
          dsimp only
          rw [cancelFirst_append ctx.next_order_id _ rfl ctx.orders hfresh]
          dsimp only
          simp only [StrategyContext.mk.injEq, and_true, true_and]
          ring

/-- C6: placing then cancelling a `LimitBuy` (resp. `LimitSell`) restores
the account exactly, balance (resp. position) included, with exact decimal
equality; and the S6 backtest whose only action is one never-filled
`LimitBuy` ends with balance exactly 10000 and no trades. -/
theorem c6_reservation_correctness :
    (∀ ctx p a oid ctx', IdsFresh ctx → limit_buy ctx p a = (.ok (some oid), ctx') →
      cancel_order ctx' oid = { ctx with next_order_id := ctx.next_order_id + 1 }) ∧
    (∀ ctx p a oid ctx', IdsFresh ctx → limit_sell ctx p a = (.ok (some oid), ctx') →
      cancel_order ctx' oid = { ctx with next_order_id := ctx.next_order_id + 1 }) ∧
    execute_backtest s6Tick s6Candles s6Fees s6Precision =
      .ok ({ candles_processed := 3, final_balance := 10000,
             final_position := 0, trades := [] }, [100/3, 100]) := by
  refine ⟨fun ctx p a oid ctx' hf h => limit_buy_cancel ctx p a oid ctx' hf h,
          fun ctx p a oid ctx' hf h => limit_sell_cancel ctx p a oid ctx' hf h,
          ?_⟩
  with_unfolding_all rfl

/-- C6 witness: at the concrete account `c6WCtx`, `limit_buy 50 1` then
`cancel_order` restores the account exactly (only the id counter moved). -/
theorem c6_witness :
    cancel_order c6WCtx2 0 = { c6WCtx with next_order_id := 1 } := by
  refine c6_reservation_correctness.1 c6WCtx 50 1 0 c6WCtx2 ?_ ?_
  · intro o ho
    simp [c6WCtx, StrategyContext.new] at ho
  · with_unfolding_all rfl

/-- C7 counterexample: with close 100.5 and price tick 1, the requested
price 100.7 is at or above the close, yet `limit_buy` returns an order id
and appends no trade, while `market_buy` appends one: the downgrade is
decided on the rounded price (100 < 100.5), not the requested price. -/
theorem c7_counterexample :
    (1007/10 : ℚ) ≥ (201/2 : ℚ) ∧
    (flatCandle 0 (201/2)).close = (201/2 : ℚ) ∧
    (limit_buy c7Ctx (1007/10) 1).1 = .ok (some 0) ∧
    (limit_buy c7Ctx (1007/10) 1).2.trades = [] ∧
    (market_buy c7Ctx 1).2.trades ≠ [] := by
  refine ⟨by with_unfolding_all decide, by with_unfolding_all rfl,
    by with_unfolding_all rfl, by with_unfolding_all rfl, by with_unfolding_all decide⟩
/-- C7 (amended): whenever the price rounded down to the tick is at or
above the current close, `limit_buy` behaves exactly as `market_buy` on
the same amount, returning no order id and producing the same ending
account. -/
theorem c7_downgrade (ctx : StrategyContext) (price amount : ℚ) (c : Candle)
    (hc : ctx.candles.getLast? = some c)
    (hp : round_down_to_precision price ctx.precision.price_precision ≥ c.close) :
    limit_buy ctx price amount =
      ((market_buy ctx amount).1.map (fun _ => (none : Option Nat)),
        (market_buy ctx amount).2) := by
  unfold limit_buy
  dsimp only
  by_cases ha : round_down_to_precision amount ctx.precision.amount_precision ≤ 0
  · rw [if_pos ha]
    have hmb : market_buy ctx amount = (.error "Amount must be positive", ctx) := by
      unfold market_buy; dsimp only; rw [if_pos ha]
    rw [hmb]
    rfl
  · rw [if_neg ha, hc]
    dsimp only
    rw [if_pos hp]
    have hidem : market_buy ctx (round_down_to_precision amount ctx.precision.amount_precision) =
        market_buy ctx amount := by
      unfold market_buy
      dsimp only
      rw [round_down_idem]
    rw [hidem]
    generalize market_buy ctx amount = res
    rcases res with ⟨r | e, c2⟩
    · rfl
    · rfl
/-- C7 witness: at close 100 with requested price 100 the downgrade fires
and the two operations agree. -/
theorem c7_witness :
    limit_buy c7WCtx 100 1 =
      ((market_buy c7WCtx 1).1.map (fun _ => (none : Option Nat)),
        (market_buy c7WCtx 1).2) :=
  c7_downgrade c7WCtx 100 1 (flatCandle 0 100) (by with_unfolding_all rfl)
    (by with_unfolding_all decide)

/-- The order loop of `before` adds the filled buy amounts to the
position, the filled sell proceeds to the balance, appends the fill trades
in insertion order, and collects the executed ids in insertion order. -/
theorem beforeLoop_spec (c : Candle) :
    ∀ (l : List Order) (pos bal : ℚ) (tr : List Trade) (ex : List Nat),
      beforeLoop c l pos bal tr ex =
        (pos + (l.map (buyContribution c)).sum,
         bal + (l.map (sellContribution c)).sum,
         tr ++ (l.filter (fills c)).map (fillTrade c),
         ex ++ (l.filter (fills c)).map Order.id) := by
  intro l
  induction l with
  | nil => intro pos bal tr ex; simp [beforeLoop]
  | cons hd tl ih =>
    intro pos bal tr ex
    unfold beforeLoop
    split
    · rename_i hbuy
      split
      · rename_i hcond
        rw [ih]
        simp [fills, buyContribution, sellContribution, fillTrade, hbuy, hcond,
          List.filter_cons, add_assoc]
      · rename_i hcond
        rw [ih]
        simp [fills, buyContribution, sellContribution, hbuy, hcond, List.filter_cons]
    · rename_i hsell
      split
      · rename_i hcond
        rw [ih]
        simp [fills, buyContribution, sellContribution, fillTrade, hsell, hcond,
          List.filter_cons, add_assoc]
      · rename_i hcond
        rw [ih]
        simp [fills, buyContribution, sellContribution, hsell, hcond, List.filter_cons]

end Merco
namespace Merco
/-- C8: in the fill phase, with distinct order ids, an open `LimitBuy`
fills exactly when its price is at or above the bar's low (gaining its
amount of position, with no balance change) and an open `LimitSell` fills
exactly when its price is at or below the bar's high (crediting
`price*amount - fee`); fill trades are appended in insertion order and
exactly the filled orders are removed. -/
theorem c8_fill_semantics (ctx : StrategyContext) (c : Candle)
    (hc : ctx.candles.getLast? = some c)
    (hnd : (ctx.orders.map Order.id).Nodup) :
    (before ctx).1 = .ok () ∧
    (before ctx).2.position = ctx.position + (ctx.orders.map (buyContribution c)).sum ∧
    (before ctx).2.balance = ctx.balance + (ctx.orders.map (sellContribution c)).sum ∧
    (before ctx).2.trades = ctx.trades ++ (ctx.orders.filter (fills c)).map (fillTrade c) ∧
    (before ctx).2.orders = ctx.orders.filter (fun o => !(fills c o)) := by
  unfold before
  rw [hc]
  dsimp only
  rw [beforeLoop_spec]
  dsimp only
  refine ⟨rfl, rfl, rfl, rfl, ?_⟩
  refine List.filter_congr ?_
  intro o ho
  have hiff : o.id ∈ (ctx.orders.filter (fills c)).map Order.id ↔ fills c o = true := by
    constructor
    · intro hm
      obtain ⟨o2, ho2, hid⟩ := List.mem_map.mp hm
      obtain ⟨ho2l, hf2⟩ := List.mem_filter.mp ho2
      rwa [List.inj_on_of_nodup_map hnd ho2l ho hid] at hf2
    · intro hf
      exact List.mem_map_of_mem _ (List.mem_filter.mpr ⟨ho, hf⟩)
  simp only [List.nil_append, List.contains, decide_eq_decide, List.elem_iff]
  rcases hf : fills c o with _ | _
  · simp [hiff, hf]
  · simp [hiff, hf]
/-- C8 witness: the fill phase applied to a concrete account with a
crossing buy, a crossing sell and a non-crossing buy. -/
theorem c8_witness :
    (before c8WCtx).1 = .ok () ∧
    (before c8WCtx).2.position =
      c8WCtx.position + (c8WCtx.orders.map (buyContribution c8Candle)).sum ∧
    (before c8WCtx).2.balance =
      c8WCtx.balance + (c8WCtx.orders.map (sellContribution c8Candle)).sum ∧
    (before c8WCtx).2.trades =
      c8WCtx.trades ++ (c8WCtx.orders.filter (fills c8Candle)).map (fillTrade c8Candle) ∧
    (before c8WCtx).2.orders = c8WCtx.orders.filter (fun o => !(fills c8Candle o)) :=
  c8_fill_semantics c8WCtx c8Candle (by with_unfolding_all rfl)
    (by with_unfolding_all decide)

/-- Progress mutations do not change the status field. -/
theorem foldl_setProgress (ps : List ℚ) :
    ∀ s : TaskStatus, List.foldl applyMutation s (ps.map TaskMutation.setProgress) = s := by
  induction ps with
  | nil => intro s; rfl
  | cons hd tl ih => intro s; exact ih s
/-- After the initial `Running` transition and any number of progress
updates, the task status is still `Running`. -/
theorem statusAfter_take_mid (ps : List ℚ) (z : TaskMutation) (n : Nat)
    (h : n ≤ ps.length) :
    statusAfter ((TaskMutation.setRunning :: (ps.map .setProgress ++ [z])).take (n + 1)) =
      .running := by
  unfold statusAfter
  rw [List.take_succ_cons, List.foldl_cons]
  rw [List.take_append_of_le_length (by simpa using h), ← List.map_take]
  exact foldl_setProgress (ps.take n) .running
/-- The status after the whole trace is the effect of its terminal
mutation on `Running`. -/
theorem statusAfter_full (ps : List ℚ) (z : TaskMutation) :
    statusAfter (TaskMutation.setRunning :: (ps.map .setProgress ++ [z])) =
      applyMutation .running z := by
  unfold statusAfter
  rw [List.foldl_cons, List.foldl_append]
  rw [show applyMutation TaskStatus.pending TaskMutation.setRunning = TaskStatus.running from rfl]
  rw [foldl_setProgress ps .running]
  rfl
/-- C9: along the mutation trace a worker applies to its task, every
transition is `Pending → Running → {Completed, Failed}` or a stutter, and
once a prefix of the trace reaches a terminal status that prefix is the
whole trace: a terminal task is never mutated again and never re-enters
`Running`. -/
theorem c9_lifecycle :
    ∀ r : Except String FetchRun,
      (∀ n, ((statusAfter ((executeTaskTrace r).take n)).isTerminal = true →
        (executeTaskTrace r).take n = executeTaskTrace r)) ∧
      (∀ n, n + 1 ≤ (executeTaskTrace r).length →
        AllowedTransition (statusAfter ((executeTaskTrace r).take n))
          (statusAfter ((executeTaskTrace r).take (n + 1)))) := by
  intro r
  have htr : ∃ (ps : List ℚ) (z : TaskMutation), executeTaskTrace r =
      TaskMutation.setRunning :: (ps.map .setProgress ++ [z]) ∧
      (z = .complete ∨ z = .fail) := by
    cases r with
    | ok fr => exact ⟨fr.progress, .complete, rfl, Or.inl rfl⟩
    | error e => exact ⟨[], .fail, rfl, Or.inr rfl⟩
  obtain ⟨ps, z, htr, hz⟩ := htr
  rw [htr]
  have hlen : (TaskMutation.setRunning :: (ps.map .setProgress ++ [z])).length =
      ps.length + 2 := by simp
  constructor
  · intro n hterm
    by_cases hn : ps.length + 2 ≤ n
    · exact List.take_of_length_le (by rw [hlen]; exact hn)
    · exfalso
      rcases Nat.eq_zero_or_pos n with rfl | hpos
      · simp [statusAfter, TaskStatus.isTerminal] at hterm
      · obtain ⟨m, rfl⟩ := Nat.exists_eq_succ_of_ne_zero (Nat.pos_iff_ne_zero.mp hpos)
        have hm : m ≤ ps.length := by omega
        rw [statusAfter_take_mid ps z m hm] at hterm
        simp [TaskStatus.isTerminal] at hterm
  · intro n hn1
    rw [hlen] at hn1
    rcases Nat.eq_zero_or_pos n with rfl | hpos
    · rw [List.take_zero]
      rw [statusAfter_take_mid ps z 0 (Nat.zero_le _)]
      exact Or.inr (Or.inl ⟨rfl, rfl⟩)
    · obtain ⟨m, rfl⟩ := Nat.exists_eq_succ_of_ne_zero (Nat.pos_iff_ne_zero.mp hpos)
      have hm : m ≤ ps.length := by omega
      rw [statusAfter_take_mid ps z m hm]
      by_cases hm2 : m + 1 ≤ ps.length
      · rw [statusAfter_take_mid ps z (m + 1) hm2]
        exact Or.inl rfl
      · have : m + 2 = ps.length + 2 := by omega
        rw [this, ← hlen, List.take_of_length_le (le_refl _)]
        rw [statusAfter_full ps z]
        rcases hz with rfl | rfl
        · exact Or.inr (Or.inr ⟨rfl, Or.inl rfl⟩)
        · exact Or.inr (Or.inr ⟨rfl, Or.inr rfl⟩)
/-- C9 witness: for a failing fetch the two-mutation trace is terminal
after both mutations and nothing follows; the first transition is
`Pending → Running`. -/
theorem c9_witness :
    (statusAfter ((executeTaskTrace (.error "source failure")).take 2)).isTerminal = true ∧
    (executeTaskTrace (.error "source failure")).take 2 =
      executeTaskTrace (.error "source failure") ∧
    AllowedTransition
      (statusAfter ((executeTaskTrace (.error "source failure")).take 0))
      (statusAfter ((executeTaskTrace (.error "source failure")).take 1)) :=
  ⟨by decide, (c9_lifecycle (.error "source failure")).1 2 (by decide),
   (c9_lifecycle (.error "source failure")).2 0 (by decide)⟩

/-- C3 counterexample: with the repository caught up (latest bar at
100000, one-minute frame) and `now = 150000 < next_since = 160000`, the
fetch worker fails with "Invalid time range" instead of completing with 0
records. -/
theorem c3_counterexample :
    fetch_candles_data srcEmpty (some 100000) 150000 60000 "BTC" "binance" 10 =
      some (.error "Invalid time range for BTC on binance") := by
  with_unfolding_all rfl
/-- C3 (amended): whenever `now` is earlier than the computed
`next_since`, the fetch worker fails the task with the "Invalid time
range" error (the negative duration makes `to_u64()` return `None`). -/
theorem c3_now_before_since (source : Int → List Candle) (latest : Option Int)
    (now : Int) (tf : Nat) (symbol exchange : String) (fuel : Nat)
    (s0 : Int) (n0 : Nat)
    (hinit : initialSince source latest tf symbol exchange = .ok (s0, n0))
    (hlt : now < s0) :
    fetch_candles_data source latest now tf symbol exchange fuel =
      some (.error ("Invalid time range for " ++ symbol ++ " on " ++ exchange)) := by
  unfold fetch_candles_data
  rw [hinit]
  dsimp only
  rw [if_pos hlt]
/-- C3 witness: the amended behaviour at the concrete caught-up
repository. -/
theorem c3_witness :
    fetch_candles_data srcEmpty (some 100000) 150000 60000 "BTC" "binance" 10 =
      some (.error ("Invalid time range for " ++ "BTC" ++ " on " ++ "binance")) :=
  c3_now_before_since srcEmpty (some 100000) 150000 60000 "BTC" "binance" 10
    160000 0 (by with_unfolding_all rfl) (by decide)
/-- C1 counterexample: a resume run whose estimate is 5 bars but whose
source serves only 2 reports `records = 5`, not the 2 candles actually
fetched and inserted. -/
theorem c1_counterexample :
    fetch_candles_data srcTwoPages (some 0) 330000 60000 "BTC" "binance" 10 =
      some (.ok { records := 5, count := 2, initialCount := 0, progress := [0, 40] }) ∧
    (5 : Nat) ≠ 2 + 0 := by
  exact ⟨by with_unfolding_all rfl, by decide⟩
/-- C1 (amended): on normal termination the result's `records` field
equals the a-priori ceiling estimate `(now - next_since + tf - 1) / tf`
computed before the paging loop; it is independent of the number of
candles actually inserted and does not count the initial batch. -/
theorem c1_records_eq_estimate (source : Int → List Candle) (latest : Option Int)
    (now : Int) (tf : Nat) (symbol exchange : String) (fuel : Nat)
    (fr : FetchRun) (s0 : Int) (n0 : Nat)
    (hinit : initialSince source latest tf symbol exchange = .ok (s0, n0))
    (hok : fetch_candles_data source latest now tf symbol exchange fuel = some (.ok fr)) :
    fr.records = ((now - s0).toNat + tf - 1) / tf ∧ fr.initialCount = n0 := by
  unfold fetch_candles_data at hok
  rw [hinit] at hok
  dsimp only at hok
  split at hok
  · simp at hok
  · split at hok
    · exact Option.noConfusion hok
    · injection hok with h1
      injection h1 with h1
      subst h1
      exact ⟨rfl, rfl⟩
/-- C1 witness: the amended statement at the concrete two-page resume
run. -/
theorem c1_witness :
    ({ records := 5, count := 2, initialCount := 0, progress := [0, 40] } : FetchRun).records =
      (((330000 : Int) - 60000).toNat + 60000 - 1) / 60000 ∧
    ({ records := 5, count := 2, initialCount := 0, progress := [0, 40] } : FetchRun).initialCount = 0 :=
  c1_records_eq_estimate srcTwoPages (some 0) 330000 60000 "BTC" "binance" 10
    _ 60000 0 (by with_unfolding_all rfl) (by with_unfolding_all rfl)
/-- C4 counterexample: against the source that always returns the bar at
timestamp 0, the fetch worker is still looping after 100 pages; the
claimed non-advance guard would have stopped it on the second page. -/
theorem c4_counterexample :
    fetch_candles_data srcConst (some 0) 330000 60000 "BTC" "binance" 100 = none := by
  with_unfolding_all rfl
/-- C4 (amended): the paging loop has no guard on a non-advancing
`next_since`: whenever the page at `since` ends with a candle whose
timestamp plus one bar equals `since` itself, the loop never terminates,
whatever the fuel. -/
theorem c4_nonadvancing_loop (source : Int → List Candle) (tf total : Nat)
    (since : Int) (c : Candle)
    (hlast : (source since).getLast? = some c)
    (hts : c.timestamp + (tf : Int) = since) :
    ∀ (fuel : Nat) (count : Nat) (evs : List ℚ),
      fetchLoop source tf total fuel since count evs = none := by
  intro fuel
  induction fuel with
  | zero => intro count evs; rfl
  | succ n ih =>
    intro count evs
    unfold fetchLoop
    rw [hlast]
    dsimp only
    rw [hts]
    exact ih _ _
/-- C4 witness: three pages of the constant source leave the loop still
running. -/
theorem c4_witness :
    fetchLoop srcConst 60000 5 3 60000 0 [] = none :=
  c4_nonadvancing_loop srcConst 60000 5 60000 (flatCandle 0 1)
    (by with_unfolding_all rfl) (by decide) 3 0 []

/-- A progress value `100*a/total` is nonnegative. -/
theorem ratio_nonneg (a t : Nat) : 0 ≤ 100 * (a : ℚ) / (t : ℚ) := by positivity
/-- Progress values grow with the count. -/
theorem ratio_mono (a b t : Nat) (h : a ≤ b) :
    100 * (a : ℚ) / (t : ℚ) ≤ 100 * (b : ℚ) / (t : ℚ) := by
  rcases Nat.eq_zero_or_pos t with rfl | ht
  · simp
  · have ht' : (0 : ℚ) < t := by exact_mod_cast ht
    rw [div_le_div_iff_of_pos_right ht']
    have : (a : ℚ) ≤ b := by exact_mod_cast h
    nlinarith
/-- A progress value stays at or below 100 while the count is at or below
the total. -/
theorem ratio_le_100 (a t : Nat) (h : a ≤ t) :
    100 * (a : ℚ) / (t : ℚ) ≤ 100 := by
  rcases Nat.eq_zero_or_pos t with rfl | ht
  · interval_cases a
    simp
  · have ht' : (0 : ℚ) < t := by exact_mod_cast ht
    rw [div_le_iff₀ ht']
    have : (a : ℚ) ≤ t := by exact_mod_cast h
    nlinarith
/-- The fetch loop extends a monotone, nonnegative progress list into a
monotone, nonnegative progress list: counts only grow, so
`100*count/total` only grows. -/
theorem fetchLoop_progress (source : Int → List Candle) (tf total : Nat) :
    ∀ (fuel : Nat) (since : Int) (count : Nat) (evs : List ℚ) (res : Nat × List ℚ),
      fetchLoop source tf total fuel since count evs = some res →
      List.Chain' (· ≤ ·) evs →
      (∀ q ∈ evs, 0 ≤ q ∧ q ≤ 100 * (count : ℚ) / (total : ℚ)) →
      List.Chain' (· ≤ ·) res.2 ∧ ∀ q ∈ res.2, 0 ≤ q := by
  intro fuel
  induction fuel with
  | zero => intro since count evs res h _ _; exact Option.noConfusion h
  | succ n ih =>
    intro since count evs res h hch hbd
    unfold fetchLoop at h
    split at h
    · injection h with h1
      subst h1
      exact ⟨hch, fun q hq => (hbd q hq).1⟩
    · refine ih _ _ _ _ h ?_ ?_
      · rw [List.chain'_append]
        refine ⟨hch, List.chain'_singleton _, ?_⟩
        intro x hx y hy
        rw [List.head?_cons, Option.mem_some_iff] at hy
        subst hy
        have hxm : x ∈ evs := by
          rcases evs with _ | ⟨a, l⟩
          · simp at hx
          · exact List.mem_of_mem_getLast? hx
        exact le_trans (hbd x hxm).2 (ratio_mono count (count + (source since).length) total (Nat.le_add_right _ _))
      · intro q hq
        rcases List.mem_append.mp hq with hq1 | hq1
        · exact ⟨(hbd q hq1).1,
            le_trans (hbd q hq1).2
              (ratio_mono count (count + (source since).length) total (Nat.le_add_right _ _))⟩
        · rcases List.mem_singleton.mp hq1 with rfl
          exact ⟨ratio_nonneg _ _, le_refl _⟩
/-- The backtest loop keeps its progress list monotone and inside
`[0, 100]`: values `100*(index+1)/total` grow with the index, which never
exceeds the candle total. -/
theorem backtestLoop_progress (tick : StrategyContext → StrategyContext) (total : Nat) :
    ∀ (cs : List Candle) (idx : Nat) (ctx : StrategyContext) (evs : List ℚ)
      (res : StrategyContext × List ℚ),
      backtestLoop tick total cs idx ctx evs = .ok res →
      idx + cs.length ≤ total →
      List.Chain' (· ≤ ·) evs →
      (∀ q ∈ evs, 0 ≤ q ∧ q ≤ 100 * (idx : ℚ) / (total : ℚ)) →
      List.Chain' (· ≤ ·) res.2 ∧ ∀ q ∈ res.2, 0 ≤ q ∧ q ≤ 100 := by
  intro cs
  induction cs with
  | nil =>
    intro idx ctx evs res h hlen hch hbd
    injection h with h1
    subst h1
    refine ⟨hch, fun q hq => ⟨(hbd q hq).1, ?_⟩⟩
    refine le_trans (hbd q hq).2 (ratio_le_100 idx total ?_)
    simpa using hlen
  | cons c rest ih =>
    intro idx ctx evs res h hlen hch hbd
    have hcast : ((idx + 1 : Nat) : ℚ) = (idx : ℚ) + 1 := by push_cast; ring
    have hlen2 : (idx + 1) + rest.length ≤ total := by
      simp only [List.length_cons] at hlen
      omega
    unfold backtestLoop at h
    dsimp only at h
    split at h
    · exact Except.noConfusion h
    · by_cases hidx : idx % 100 = 0
      · rw [if_pos hidx] at h
        refine ih (idx + 1) _ _ res h hlen2 ?_ ?_
        · rw [List.chain'_append]
          refine ⟨hch, List.chain'_singleton _, ?_⟩
          intro x hx y hy
          rw [List.head?_cons, Option.mem_some_iff] at hy
          subst hy
          have hxm : x ∈ evs := by
            rcases evs with _ | ⟨a, l⟩
            · simp at hx
            · exact List.mem_of_mem_getLast? hx
          refine le_trans (hbd x hxm).2 ?_
          rw [← hcast]
          exact ratio_mono idx (idx + 1) total (Nat.le_succ _)
        · intro q hq
          rcases List.mem_append.mp hq with hq1 | hq1
          · exact ⟨(hbd q hq1).1,
              le_trans (hbd q hq1).2 (ratio_mono idx (idx + 1) total (Nat.le_succ _))⟩
          · rcases List.mem_singleton.mp hq1 with rfl
            rw [hcast]
            exact ⟨by positivity, le_refl _⟩
      · rw [if_neg hidx] at h
        refine ih (idx + 1) _ _ res h hlen2 hch ?_
        intro q hq
        exact ⟨(hbd q hq).1,
          le_trans (hbd q hq).2 (ratio_mono idx (idx + 1) total (Nat.le_succ _))⟩
/-- C2 (amended): progress values are non-decreasing and nonnegative for
both workers; for the backtest engine they moreover stay at or below 100
and the final broadcast value before `Complete` is exactly 100.  For the
fetch worker the claimed upper bound and final value are refuted by the
counterexample. -/
theorem c2_progress_events :
    (∀ (source : Int → List Candle) (latest : Option Int) (now : Int) (tf : Nat)
        (symbol exchange : String) (fuel : Nat) (fr : FetchRun),
        fetch_candles_data source latest now tf symbol exchange fuel = some (.ok fr) →
        List.Chain' (· ≤ ·) fr.progress ∧ ∀ q ∈ fr.progress, 0 ≤ q) ∧
    (∀ (tick : StrategyContext → StrategyContext) (candles : List Candle)
        (fees : TradingFees) (precision : MarketPrecision)
        (r : BacktestResult) (evs : List ℚ),
        execute_backtest tick candles fees precision = .ok (r, evs) →
        List.Chain' (· ≤ ·) evs ∧ (∀ q ∈ evs, 0 ≤ q ∧ q ≤ 100) ∧
        evs.getLast? = some 100) := by
  constructor
  · intro source latest now tf symbol exchange fuel fr hok
    unfold fetch_candles_data at hok
    split at hok
    · simp at hok
    · dsimp only at hok
      split at hok
      · simp at hok
      · split at hok
        · exact Option.noConfusion hok
        · rename_i count evs heq
          injection hok with h1
          injection h1 with h1
          subst h1
          have hloop := fetchLoop_progress source tf _ fuel _ 0 [] (count, evs) heq
            List.chain'_nil (by intro q hq; simp at hq)
          dsimp only
          constructor
          · rw [List.chain'_cons']
            refine ⟨?_, hloop.1⟩
            intro y hy
            exact hloop.2 y (List.mem_of_mem_head? hy)
          · intro q hq
            rcases List.mem_cons.mp hq with rfl | hq1
            · exact le_refl 0
            · exact hloop.2 q hq1
  · intro tick candles fees precision r evs hok
    unfold execute_backtest at hok
    split at hok
    · exact Except.noConfusion hok
    · split at hok
      · exact Except.noConfusion hok
      · rename_i ctx evs0 heq
        injection hok with h1
        injection h1 with h1 h2
        subst h2
        have hloop := backtestLoop_progress tick candles.length candles 0
          (StrategyContext.new fees precision) [] (ctx, evs0) heq (by simp)
          List.chain'_nil (by intro q hq; simp at hq)
        refine ⟨?_, ?_, ?_⟩
        · rw [List.chain'_append]
          refine ⟨hloop.1, List.chain'_singleton _, ?_⟩
          intro x hx y hy
          rw [List.head?_cons, Option.mem_some_iff] at hy
          subst hy
          have hxm : x ∈ evs0 := by
            rcases evs0 with _ | ⟨a, l⟩
            · simp at hx
            · exact List.mem_of_mem_getLast? hx
          exact (hloop.2 x hxm).2
        · intro q hq
          rcases List.mem_append.mp hq with hq1 | hq1
          · exact hloop.2 q hq1
          · rcases List.mem_singleton.mp hq1 with rfl
            exact ⟨by norm_num, le_refl _⟩
        · exact List.getLast?_concat _
/-- C2 counterexample: a fetch whose source is already exhausted emits
only progress 0 before `Complete` (final value 0, not 100), and a fetch
whose source serves more bars than the estimate emits progress 200 > 100.
-/
theorem c2_counterexample :
    fetch_candles_data srcEmpty (some 0) 90000 60000 "BTC" "binance" 10 =
      some (.ok { records := 1, count := 0, initialCount := 0, progress := [0] }) ∧
    ([(0 : ℚ)].getLast? ≠ some 100) ∧
    fetch_candles_data srcTwoPages (some 0) 120000 60000 "BTC" "binance" 10 =
      some (.ok { records := 1, count := 2, initialCount := 0, progress := [0, 200] }) ∧
    ¬ ((200 : ℚ) ≤ 100) := by
  refine ⟨by with_unfolding_all rfl, by decide, by with_unfolding_all rfl, by decide⟩
/-- C2 witness: the amended statement at the concrete two-page fetch run
(progress [0, 40]) and the concrete three-bar backtest (progress
[100/3, 100]). -/
theorem c2_witness :
    (List.Chain' (· ≤ ·) [(0 : ℚ), 40] ∧ ∀ q ∈ [(0 : ℚ), 40], 0 ≤ q) ∧
    (List.Chain' (· ≤ ·) [(100 : ℚ)/3, 100] ∧
      (∀ q ∈ [(100 : ℚ)/3, 100], 0 ≤ q ∧ q ≤ 100) ∧
      ([(100 : ℚ)/3, 100].getLast? = some 100)) :=
  ⟨c2_progress_events.1 srcTwoPages (some 0) 330000 60000 "BTC" "binance" 10
      { records := 5, count := 2, initialCount := 0, progress := [0, 40] }
      (by with_unfolding_all rfl),
   c2_progress_events.2 s6Tick s6Candles s6Fees s6Precision
      { candles_processed := 3, final_balance := 10000,
        final_position := 0, trades := [] } [100/3, 100]
      (by with_unfolding_all rfl)⟩

end Merco
